import Mathlib

/-!
Shallow embedding of the form-relay program in `src/main.py`: the record
codec used by `save_data` (Python `urllib.parse.unquote_plus` followed by
split-and-unpack into a dict), the storage step (`save_data`), the relay
server receive loop (`handle`), the relay client (`send_data_to_socket`),
and the HTTP handlers (`do_POST`, the Content-type logic of `send_static`).

Payloads are modelled as lists of characters: the text obtained from
`data.decode()` on the received bytes.  The percent-escape decoder is
faithful to Python for escapes denoting ASCII characters (all data in the
claims under study); a run of escapes denoting a multi-byte UTF-8 sequence
is modelled one byte per character, which never changes the `&`/`=`
segment structure that the parsing claims are about, because those bytes
are all at least `0x80`.
-/

namespace Main

/-- Value of a hexadecimal digit, upper or lower case, as accepted by the
escape parsing of `urllib.parse.unquote`. -/
def hexVal (c : Char) : Option Nat :=
  if '0' ≤ c ∧ c ≤ '9' then some (c.toNat - '0'.toNat)
  else if 'a' ≤ c ∧ c ≤ 'f' then some (c.toNat - 'a'.toNat + 10)
  else if 'A' ≤ c ∧ c ≤ 'F' then some (c.toNat - 'A'.toNat + 10)
  else none

/-- `urllib.parse.unquote_plus` on text: `+` becomes a space, `%xy` with two
hex digits becomes the character with code `16*x+y`, and an invalid or
incomplete escape is left as a literal `%` followed by the remaining text,
exactly as Python leaves a non-decodable escape untouched. -/
def unquote_plus : List Char → List Char
  | [] => []
  | '+' :: rest => ' ' :: unquote_plus rest
  | '%' :: a :: b :: rest =>
    match hexVal a, hexVal b with
    | some x, some y => Char.ofNat (16 * x + y) :: unquote_plus rest
    | _, _ => '%' :: unquote_plus (a :: b :: rest)
  | c :: rest => c :: unquote_plus rest

/-- Python `str.split(sep)` for a one-character separator: splitting the
empty string yields one empty part, and `n` separators yield `n+1` parts. -/
def pySplit (sep : Char) : List Char → List (List Char)
  | [] => [[]]
  | c :: rest =>
    if c = sep then [] :: pySplit sep rest
    else
      match pySplit sep rest with
      | s :: ss => (c :: s) :: ss
      | [] => [[c]]

/-- One `&`-segment of `save_data`: Python unpacks `el.split('=')` into
`key, value`, which succeeds exactly when the split has two parts; any
other number of parts raises `ValueError` at the dict comprehension. -/
def parseSegment (el : List Char) : Option (List Char × List Char) :=
  match pySplit '=' el with
  | [k, v] => some (k, v)
  | _ => none

/-- All segments, or `none` as soon as one segment is malformed — the
`ValueError` from unpacking aborts the whole dict comprehension, so no
partial map is ever produced. -/
def parseAll : List (List Char) → Option (List (List Char × List Char))
  | [] => some []
  | el :: els =>
    match parseSegment el, parseAll els with
    | some kv, some kvs => some (kv :: kvs)
    | _, _ => none

/-- Join parts with a one-character separator (the inverse construction of
`pySplit`, used to state properties about payloads of the shape
`key=value&key=value...`). -/
def joinSep (sep : Char) : List (List Char) → List Char
  | [] => []
  | [p] => p
  | p :: ps => p ++ sep :: joinSep sep ps

/-- The value of the LAST occurrence of a key in a pair list — the
binding a Python dict comprehension keeps when a key repeats. -/
def lastLookup (k : List Char) : List (List Char × List Char) → Option (List Char)
  | [] => none
  | p :: ps =>
    match lastLookup k ps with
    | some v => some v
    | none => if p.1 = k then some p.2 else none

/-- Python dict insertion: an existing key keeps its position in the dict
and receives the new value, a new key is appended at the end. -/
def dictInsert (m : List (List Char × List Char)) (k v : List Char) :
    List (List Char × List Char) :=
  if m.any (fun p => p.1 = k) then
    m.map (fun p => if p.1 = k then (k, v) else p)
  else m ++ [(k, v)]

/-- Lookup in the insertion-ordered map. -/
def dictLookup (m : List (List Char × List Char)) (k : List Char) :
    Option (List Char) :=
  (m.find? (fun p => p.1 = k)).map (fun p => p.2)

/-- The decoding step of `save_data`:
`data_parse = urllib.parse.unquote_plus(data.decode())` followed by
`data_dict = {key: value for key, value in [el.split('=') for el in data_parse.split('&')]}`.
Returns `none` when the unpacking raises `ValueError` (no partial dict). -/
def decode (data : List Char) : Option (List (List Char × List Char)) :=
  match parseAll (pySplit '&' (unquote_plus data)) with
  | none => none
  | some pairs => some (pairs.foldl (fun m kv => dictInsert m kv.1 kv.2) [])

/-- A payload of the shape `key=value&key=value...` built from raw
(still percent-encoded) key/value parts. -/
def formPayload (pairs : List (List Char × List Char)) : List Char :=
  joinSep '&' (pairs.map (fun p => p.1 ++ '=' :: p.2))

/-- The percent-decoded key/value pairs of a payload built by
`formPayload`. -/
def decodedPairs (pairs : List (List Char × List Char)) :
    List (List Char × List Char) :=
  pairs.map (fun p => (unquote_plus p.1, unquote_plus p.2))

/-- Outcome of the storage backend's `insert_one`, external to the
program: the backend either performs the insert or raises. -/
inductive InsertResult
  | ok
  | failed
  deriving DecidableEq

/-- Observable result of one `save_data` call.  `saved r` means
`insert_one` ran with document `r` (in the source this happens inside the
argument of the misused `asyncio.to_thread`, which afterwards raises a
`TypeError` that is caught and logged; the record is persisted all the
same).  `parseError` is the `except ValueError` path (`"Parsing error"`
logged, nothing inserted); `storageError` is the `except Exception` path
when `insert_one` itself raised (nothing inserted).  `save_data` never
propagates an exception to its caller. -/
inductive SaveOutcome
  | saved (record : List (List Char × List Char))
  | parseError
  | storageError
  deriving DecidableEq

/-- `save_data` from `src/main.py`, with the backend outcome and the
timestamp `str(datetime.now())` passed in as parameters `backend` and
`now`: decode the payload, add the `date` field (overwriting any decoded
`date` entry), and hand the document to `insert_one`. -/
def save_data (backend : InsertResult) (now : List Char) (data : List Char) :
    SaveOutcome :=
  match decode data with
  | none => .parseError
  | some data_dict =>
    match backend with
    | .failed => .storageError
    | .ok => .saved (dictInsert data_dict ("date".data) now)

example : unquote_plus ("Hi%20there".data) = "Hi there".data := by decide
example : unquote_plus ("a+b".data) = "a b".data := by decide
example : unquote_plus ("%zz".data) = "%zz".data := by decide
example : pySplit '&' ("a=1&b=2".data) = ["a=1".data, "b=2".data] := by decide
example : pySplit '&' [] = [[]] := by decide
example : decode ("name=Alice&msg=Hi%20there".data) =
    some [("name".data, "Alice".data), ("msg".data, "Hi there".data)] := by decide
example : decode ("badpair".data) = none := by decide
example : decode [] = none := by decide
example : decode ("a=1&a=2".data) = some [("a".data, "2".data)] := by decide
example : decode ("a=b=c".data) = none := by decide
example : save_data .ok ("TS".data) ("date=old&a=b".data) =
    .saved [("date".data, "TS".data), ("a".data, "b".data)] := by decide

/-! ### The relay server receive loop (`handle`) -/

/-- One observable socket event of a `handle` worker: the persistence
attempt for a received chunk (with its outcome), the echo `sock.send` of a
chunk, and the final `sock.close()` from the `finally` block. -/
inductive Event
  | persist (chunk : List Char) (outcome : SaveOutcome)
  | send (chunk : List Char)
  | close
  deriving DecidableEq

/-- The `while True` receive loop of `handle` in `src/main.py`.  `chunks`
are the successive results of `sock.recv(1024)`; an empty chunk is the
peer's EOF and breaks the loop.  For a non-empty chunk the loop first runs
`asyncio.run(save_data(received))` to completion — `backend i` and `now i`
give the backend outcome and timestamp of the i-th iteration — and only
then echoes the exact received bytes with `sock.send(received)`. -/
def handleLoop (backend : Nat → InsertResult) (now : Nat → List Char) :
    Nat → List (List Char) → List Event
  | _, [] => []
  | i, received :: rest =>
    if received = [] then []
    else
      .persist received (save_data (backend i) (now i) received) ::
      .send received :: handleLoop backend now (i + 1) rest

/-- `handle` from `src/main.py`: run the receive loop, then close the
socket (the `finally` clause). -/
def handle (backend : Nat → InsertResult) (now : Nat → List Char)
    (chunks : List (List Char)) : List Event :=
  handleLoop backend now 0 chunks ++ [.close]

/-- The chunks the receive loop actually processes: the received chunks up
to (not including) the first empty read. -/
def processedChunks (chunks : List (List Char)) : List (List Char) :=
  chunks.takeWhile (fun c => ¬ c = [])

/-- The payload of an echo event, if any. -/
def sentOf : Event → Option (List Char)
  | .send c => some c
  | _ => none

/-- The payload of a persistence-attempt event, if any. -/
def persistOf : Event → Option (List Char)
  | .persist c _ => some c
  | _ => none

/-- The sequence of chunks echoed back on the connection. -/
def sentChunks (evs : List Event) : List (List Char) :=
  evs.filterMap sentOf

/-- The sequence of chunks for which a persistence attempt was made. -/
def persistAttempts (evs : List Event) : List (List Char) :=
  evs.filterMap persistOf

/-! ### The relay client (`send_data_to_socket`) -/

/-- Relay endpoint constants from `src/main.py`. -/
def TCP_IP : List Char := "127.0.0.1".data

/-- Relay port constant from `src/main.py`. -/
def TCP_PORT : Nat := 5000

/-- One socket operation issued by the relay client. -/
inductive ClientOp
  | connect (host : List Char) (port : Nat)
  | send (data : List Char)
  | recv (bufsize : Nat)
  | close
  deriving DecidableEq

/-- The socket operations `send_data_to_socket` issues on its error-free
path: `sock.connect((TCP_IP, TCP_PORT))`, one `sock.send(data)` with the
whole payload, one `sock.recv(1024)`.  The function then returns; the
source contains no `sock.close()` call (the socket object is only
finalized by garbage collection after the function returns). -/
def send_data_to_socket (data : List Char) : List ClientOp :=
  [.connect TCP_IP TCP_PORT, .send data, .recv 1024]

/-! ### The HTTP POST handler and the static Content-type logic -/

/-- What happened on the relay hop, as seen by `do_POST`.  The handler
never inspects it: `send_data_to_socket` catches every exception and
returns nothing, and the acknowledgment bytes are only printed. -/
inductive RelayOutcome
  | ok (ack : List Char)
  | connectError
  | ioError

/-- The response `do_POST` produces, together with the body bytes it
handed to `send_data_to_socket`. -/
structure PostResponse where
  status : Nat
  headers : List (List Char × List Char)
  relayed : List Char
  deriving DecidableEq

/-- `do_POST` from `src/main.py`: read `Content-Length` bytes from the
request stream, hand them to `send_data_to_socket` (whose outcome `relay`
is ignored — all its exceptions are caught inside), then respond 302 with
`Location: /`.  The request path is never consulted. -/
def do_POST (path : List Char) (relay : RelayOutcome) (contentLength : Nat)
    (rfile : List Char) : PostResponse :=
  let data := rfile.take contentLength
  { status := 302
    headers := [("Location".data, "/".data)]
    relayed := data }

/-- Extension of a path component, as `posixpath.splitext` extracts it for
`mimetypes.guess_type`: the suffix from the last dot, or empty when the
component has no dot after its leading dots (leading dots never start an
extension: `.bashrc` has none). -/
def splitext_ext (base : List Char) : List Char :=
  let parts := pySplit '.' (base.dropWhile (fun c => c = '.'))
  if parts.length ≤ 1 then []
  else '.' :: parts.getLastD []

/-- Modelled from the Python standard library: the extension-to-type table
`mimetypes.guess_type` consults (the entries relevant to the served static
assets; an extension absent from the table yields no type). -/
def types_map : List (List Char × List Char) :=
  [(".html".data, "text/html".data),
   (".htm".data, "text/html".data),
   (".css".data, "text/css".data),
   (".js".data, "text/javascript".data),
   (".png".data, "image/png".data),
   (".jpg".data, "image/jpeg".data),
   (".jpeg".data, "image/jpeg".data),
   (".gif".data, "image/gif".data),
   (".svg".data, "image/svg+xml".data),
   (".ico".data, "image/vnd.microsoft.icon".data),
   (".txt".data, "text/plain".data),
   (".json".data, "application/json".data)]

/-- Modelled from the Python standard library: `mimetypes.guess_type` on a
URL path — take the last `/`-component, extract its extension, lowercase
it, look it up; the result is the pair `(type, encoding)` where the type
is `None` for an unknown extension (encoding handling is irrelevant to the
paths under study and modelled as `None`). -/
def guess_type (path : List Char) : Option (List Char) × Option (List Char) :=
  let base := (pySplit '/' path).getLastD []
  let ext := (splitext_ext base).map Char.toLower
  ((types_map.find? (fun p => p.1 = ext)).map (fun p => p.2), none)

/-- Python truthiness of the value `mt = mimetypes.guess_type(self.path)`:
`mt` is a 2-tuple, and a non-empty tuple is truthy whatever it holds —
even `(None, None)`. -/
def guessTruthy (mt : Option (List Char) × Option (List Char)) : Bool :=
  true

/-- The Content-type header value `send_static` sends: the source tests
`if mt:` on the tuple (always truthy), so it always sends `mt[0]` —
`none` here models Python `None`, which `send_header` renders literally as
the text `None` — and the `else` branch sending `text/plain` is
unreachable. -/
def send_static_content_type (path : List Char) : Option (List Char) :=
  let mt := guess_type path
  if guessTruthy mt then mt.1 else some ("text/plain".data)

example : send_static_content_type ("/style.css".data) =
    some ("text/css".data) := by decide
example : send_static_content_type ("/file.xyz".data) = none := by decide
example : handle (fun _ => .ok) (fun _ => "T".data) ["a=b".data, []] =
    [.persist ("a=b".data) (.saved [("a".data, "b".data), ("date".data, "T".data)]),
     .send ("a=b".data), .close] := by decide

/-! ## Theorems -/

/-- Unfolding: the loop on a non-empty chunk. -/
lemma handleLoop_cons (backend : Nat → InsertResult) (now : Nat → List Char)
    (i : Nat) (c : List Char) (rest : List (List Char)) (hc : c ≠ []) :
    handleLoop backend now i (c :: rest) =
      Event.persist c (save_data (backend i) (now i) c) ::
        Event.send c :: handleLoop backend now (i + 1) rest := by
  simp [handleLoop, hc]

/-- Unfolding: the processed chunks of a stream headed by a non-empty
chunk. -/
lemma processedChunks_cons (c : List Char) (rest : List (List Char))
    (hc : c ≠ []) :
    processedChunks (c :: rest) = c :: processedChunks rest := by
  simp [processedChunks, List.takeWhile_cons, hc]

/-- The receive loop processes exactly the chunks before the first EOF,
emitting for the i-th of them its persistence attempt immediately followed
by its echo. -/
lemma handleLoop_eq (backend : Nat → InsertResult) (now : Nat → List Char) :
    ∀ (chunks : List (List Char)) (i : Nat),
      handleLoop backend now i chunks =
        (List.enumFrom i (processedChunks chunks)).flatMap
          (fun p => [Event.persist p.2 (save_data (backend p.1) (now p.1) p.2),
                     Event.send p.2]) := by
  intro chunks
  induction chunks with
  | nil => intro i; rfl
  | cons c rest ih =>
    intro i
    by_cases hc : c = []
    · subst hc
      simp [handleLoop, processedChunks, List.takeWhile]
    · rw [handleLoop_cons backend now i c rest hc, processedChunks_cons c rest hc,
        List.enumFrom_cons]
      rw [ih (i + 1)]
      rfl

/-- Claim C1: for every connection accepted by the relay server and every
non-empty chunk received on it, the full event trace of `handle` is, for
the i-th processed chunk (every received chunk before the first EOF read),
the completed persistence attempt `save_data` — whose outcome may be a
success or a logged failure, the `backend` oracle being arbitrary —
immediately followed by the echo `send` of exactly the received bytes;
nothing is sent back before the chunk's persistence attempt completes, and
this holds whether or not decoding the chunk succeeded. -/
theorem handle_persist_before_echo (backend : Nat → InsertResult)
    (now : Nat → List Char) (chunks : List (List Char)) :
    handle backend now chunks =
      ((List.enumFrom 0 (processedChunks chunks)).flatMap
        (fun p => [Event.persist p.2 (save_data (backend p.1) (now p.1) p.2),
                   Event.send p.2])) ++ [Event.close] := by
  unfold handle
  rw [handleLoop_eq]

/-- The echoes of the receive loop are exactly the processed chunks. -/
lemma sentChunks_handleLoop (backend : Nat → InsertResult)
    (now : Nat → List Char) :
    ∀ (chunks : List (List Char)) (i : Nat),
      (handleLoop backend now i chunks).filterMap sentOf =
        processedChunks chunks := by
  intro chunks
  induction chunks with
  | nil => intro i; rfl
  | cons c rest ih =>
    intro i
    by_cases hc : c = []
    · subst hc
      simp [handleLoop, processedChunks, List.takeWhile]
    · rw [handleLoop_cons backend now i c rest hc, processedChunks_cons c rest hc,
        List.filterMap_cons, List.filterMap_cons]
      rw [ih (i + 1)]
      rfl

/-- The persistence attempts of the receive loop are exactly the processed
chunks, each attempted once. -/
lemma persistAttempts_handleLoop (backend : Nat → InsertResult)
    (now : Nat → List Char) :
    ∀ (chunks : List (List Char)) (i : Nat),
      (handleLoop backend now i chunks).filterMap persistOf =
        processedChunks chunks := by
  intro chunks
  induction chunks with
  | nil => intro i; rfl
  | cons c rest ih =>
    intro i
    by_cases hc : c = []
    · subst hc
      simp [handleLoop, processedChunks, List.takeWhile]
    · rw [handleLoop_cons backend now i c rest hc, processedChunks_cons c rest hc,
        List.filterMap_cons, List.filterMap_cons]
      rw [ih (i + 1)]
      rfl

/-- Claim C5: decode errors and persistence errors are contained inside
`save_data` (they are logged, never raised) and neither terminates the
connection nor triggers a retry: whatever the backend oracle does, the
receive loop echoes every chunk up to the first EOF read — so it kept
reading after each error — and makes exactly one persistence attempt per
received chunk. -/
theorem handle_errors_continue (backend : Nat → InsertResult)
    (now : Nat → List Char) (chunks : List (List Char)) :
    sentChunks (handle backend now chunks) = processedChunks chunks ∧
      persistAttempts (handle backend now chunks) = processedChunks chunks := by
  unfold handle sentChunks persistAttempts
  rw [List.filterMap_append, List.filterMap_append,
    sentChunks_handleLoop, persistAttempts_handleLoop]
  constructor
  · show processedChunks chunks ++ [] = processedChunks chunks
    simp
  · show processedChunks chunks ++ [] = processedChunks chunks
    simp

/-- Claim C3: for every HTTP POST request — any path, any relay outcome,
any acknowledgment content — `do_POST` reads the body per
`Content-Length` and responds with status 302 and `Location: /`. -/
theorem do_POST_always_redirects (path : List Char) (relay : RelayOutcome)
    (contentLength : Nat) (rfile : List Char) :
    (do_POST path relay contentLength rfile).status = 302 ∧
      (do_POST path relay contentLength rfile).headers =
        [("Location".data, "/".data)] ∧
      (do_POST path relay contentLength rfile).relayed =
        rfile.take contentLength :=
  ⟨rfl, rfl, rfl⟩

/-- Counterexample to claim C7: the relay client's socket-operation trace
for a concrete payload contains no close operation — the source of
`send_data_to_socket` never calls `sock.close()`. -/
theorem send_data_to_socket_no_close :
    ClientOp.close ∉ send_data_to_socket ("a=b".data) := by
  decide

/-- Claim C7 as amended: for every payload, `send_data_to_socket` connects
to the fixed relay endpoint, writes the full payload in one send call,
blocks on exactly one `recv` of at most 1024 bytes, and then returns
WITHOUT an explicit close — the connection is only closed implicitly when
the socket object is finalized after the function returns. -/
theorem send_data_to_socket_trace (data : List Char) :
    send_data_to_socket data =
        [ClientOp.connect TCP_IP TCP_PORT, ClientOp.send data,
         ClientOp.recv 1024] ∧
      ClientOp.close ∉ send_data_to_socket data := by
  refine ⟨rfl, ?_⟩
  simp [send_data_to_socket]

/-- Claim C8 (the code bug): on a GET for a path whose extension has no
known type, `send_static` does not default the Content-Type to
`text/plain`: the tuple test `if mt:` is always true, so the handler sends
`mt[0]` — Python `None`, rendered literally in the header — and the
`text/plain` branch is dead code, as the final conjunct shows for every
path. -/
theorem send_static_no_default :
    send_static_content_type ("/file.xyz".data) = none ∧
      send_static_content_type ("/file.xyz".data) ≠
        some ("text/plain".data) ∧
      ∀ path, send_static_content_type path = (guess_type path).1 :=
  ⟨by decide, by decide, fun _ => rfl⟩

/-- Claim C9: the empty payload is a decode error — its single empty
segment contains no `=` — so `save_data` takes the `except ValueError`
path (`"Parsing error"` logged) and persists nothing, whatever the
backend would have done. -/
theorem save_data_empty_payload (backend : InsertResult) (now : List Char) :
    pySplit '&' (unquote_plus []) = [[]] ∧
      ([] : List Char).count '=' = 0 ∧
      decode [] = none ∧
      save_data backend now [] = .parseError :=
  ⟨by decide, by decide, by decide, rfl⟩

/-- Splitting never yields an empty list of parts. -/
lemma pySplit_ne_nil (sep : Char) (xs : List Char) : pySplit sep xs ≠ [] := by
  induction xs with
  | nil => simp [pySplit]
  | cons c rest ih =>
    by_cases hc : c = sep
    · simp [pySplit, hc]
    · simp only [pySplit, if_neg hc]
      rcases hsp : pySplit sep rest with _ | ⟨s, ss⟩
      · simp
      · simp

/-- A split has one more part than the string has separators. -/
lemma pySplit_length (sep : Char) (xs : List Char) :
    (pySplit sep xs).length = xs.count sep + 1 := by
  induction xs with
  | nil => simp [pySplit]
  | cons c rest ih =>
    by_cases hc : c = sep
    · subst hc
      simp [pySplit, List.count_cons, ih]
    · simp only [pySplit, if_neg hc]
      rcases hsp : pySplit sep rest with _ | ⟨s, ss⟩
      · exact absurd hsp (pySplit_ne_nil sep rest)
      · rw [hsp] at ih
        simp only [List.length_cons] at ih ⊢
        rw [List.count_cons]
        simp [hc, ih]

/-- A segment whose `=`-count is not one fails to unpack. -/
lemma parseSegment_eq_none (el : List Char) (h : el.count '=' ≠ 1) :
    parseSegment el = none := by
  have hl := pySplit_length '=' el
  unfold parseSegment
  rcases hsp : pySplit '=' el with _ | ⟨k, _ | ⟨v, _ | ⟨w, rest⟩⟩⟩
  · rfl
  · rfl
  · rw [hsp] at hl
    simp at hl
    exact absurd hl h
  · rfl

/-- One malformed segment aborts the whole comprehension. -/
lemma parseAll_eq_none (els : List (List Char)) (el : List Char)
    (hmem : el ∈ els) (hel : parseSegment el = none) :
    parseAll els = none := by
  induction els with
  | nil => cases hmem
  | cons e es ih =>
    rcases List.mem_cons.mp hmem with he | he
    · subst he
      simp [parseAll, hel]
    · simp only [parseAll, ih he]
      rcases parseSegment e with _ | kv <;> rfl

/-- Claim C2: a payload one of whose `&`-delimited segments (of the
percent-decoded text, which is what `save_data` splits) has zero or two or
more `=` characters fails to decode — `ValueError`, the `MalformedPayload`
of the spec — with no partial map, and `save_data` persists nothing for
it, taking the logged `parseError` path whatever the backend. -/
theorem decode_malformed_segment (data : List Char) (backend : InsertResult)
    (now : List Char)
    (h : ∃ el ∈ pySplit '&' (unquote_plus data), el.count '=' ≠ 1) :
    decode data = none ∧ save_data backend now data = .parseError := by
  obtain ⟨el, hmem, hcnt⟩ := h
  have hnone : parseAll (pySplit '&' (unquote_plus data)) = none :=
    parseAll_eq_none _ el hmem (parseSegment_eq_none el hcnt)
  have hdec : decode data = none := by
    unfold decode
    rw [hnone]
  refine ⟨hdec, ?_⟩
  unfold save_data
  rw [hdec]

/-- Witness for claim C2 at the payload `badpair` of the spec's scenario:
its single segment has no `=`, decoding fails, nothing is persisted. -/
theorem decode_malformed_segment_witness :
    (∃ el ∈ pySplit '&' (unquote_plus ("badpair".data)), el.count '=' ≠ 1) ∧
      decode ("badpair".data) = none ∧
      save_data .ok ("T".data) ("badpair".data) = .parseError :=
  ⟨by decide, decode_malformed_segment ("badpair".data) .ok ("T".data) (by decide)⟩

/-- After updating every entry carrying key `k0`, searching for `k0` finds
the updated value exactly where the original search found an entry. -/
lemma find?_map_update_self (k0 v0 : List Char)
    (m : List (List Char × List Char)) :
    (m.map (fun p => if p.1 = k0 then (k0, v0) else p)).find?
        (fun p => p.1 = k0) =
      (m.find? (fun p => p.1 = k0)).map (fun _ => (k0, v0)) := by
  induction m with
  | nil => rfl
  | cons p m ih =>
    by_cases hp : p.1 = k0
    · rw [List.map_cons, if_pos hp,
        List.find?_cons_of_pos _ (by simp),
        List.find?_cons_of_pos _ (by simp [hp])]
      rfl
    · rw [List.map_cons, if_neg hp,
        List.find?_cons_of_neg _ (by simp [hp]),
        List.find?_cons_of_neg _ (by simp [hp]), ih]

/-- Updating the entries carrying key `k0` does not change a search for a
different key. -/
lemma find?_map_update_other (k0 v0 k : List Char) (hk : k ≠ k0)
    (m : List (List Char × List Char)) :
    (m.map (fun p => if p.1 = k0 then (k0, v0) else p)).find?
        (fun p => p.1 = k) =
      m.find? (fun p => p.1 = k) := by
  have hk0 : ¬ k0 = k := fun h => hk h.symm
  induction m with
  | nil => rfl
  | cons p m ih =>
    by_cases hp : p.1 = k0
    · rw [List.map_cons, if_pos hp,
        List.find?_cons_of_neg _ (by simp [hk0]),
        List.find?_cons_of_neg _ (by simp [hp, hk0]), ih]
    · rw [List.map_cons, if_neg hp]
      by_cases hpk : p.1 = k
      · rw [List.find?_cons_of_pos _ (by simp [hpk]),
          List.find?_cons_of_pos _ (by simp [hpk])]
      · rw [List.find?_cons_of_neg _ (by simp [hpk]),
          List.find?_cons_of_neg _ (by simp [hpk]), ih]

/-- The fundamental property of Python dict insertion: looking up the
inserted key yields the new value, every other key is untouched. -/
lemma dictLookup_dictInsert (m : List (List Char × List Char))
    (k0 v0 k : List Char) :
    dictLookup (dictInsert m k0 v0) k =
      if k = k0 then some v0 else dictLookup m k := by
  unfold dictInsert
  by_cases hany : m.any (fun p => p.1 = k0)
  · rw [if_pos hany]
    unfold dictLookup
    by_cases hk : k = k0
    · subst hk
      rw [find?_map_update_self]
      obtain ⟨q, hq, hq2⟩ := List.any_eq_true.mp hany
      have hsome : (List.find? (fun p => decide (p.1 = k)) m).isSome = true := by
        rw [List.find?_isSome]
        exact ⟨q, hq, hq2⟩
      obtain ⟨r, hr⟩ := Option.isSome_iff_exists.mp hsome
      rw [hr]
      simp
    · rw [find?_map_update_other k0 v0 k hk, if_neg hk]
  · rw [if_neg hany]
    unfold dictLookup
    rw [List.find?_append]
    by_cases hk : k = k0
    · subst hk
      have hall : ∀ x ∈ m, ¬ (decide (x.1 = k) = true) :=
        List.any_eq_false.mp (Bool.eq_false_iff.mpr hany)
      have hnone : List.find? (fun p => decide (p.1 = k)) m = none :=
        List.find?_eq_none.mpr hall
      rw [hnone, List.find?_cons_of_pos _ (by simp)]
      simp
    · have hk0 : ¬ k0 = k := fun h => hk h.symm
      have htail : List.find? (fun p => decide (p.1 = k)) [(k0, v0)] = none := by
        simp [hk0]
      rw [htail, if_neg hk, Option.or_none]

/-- Claim C6: every record persisted from a successfully decoded payload
is the decoded map plus an injected `date` field holding the
server-generated timestamp of the persistence attempt; the timestamp
overwrites a caller-supplied `date` entry, and no other key is changed. -/
theorem save_data_record_shape (now data : List Char)
    (r : List (List Char × List Char))
    (h : save_data .ok now data = .saved r) :
    ∃ data_dict, decode data = some data_dict ∧
      r = dictInsert data_dict ("date".data) now ∧
      dictLookup r ("date".data) = some now ∧
      ∀ k, k ≠ "date".data → dictLookup r k = dictLookup data_dict k := by
  unfold save_data at h
  rcases hd : decode data with _ | dd
  · rw [hd] at h
    exact (SaveOutcome.noConfusion h)
  · rw [hd] at h
    have hr : r = dictInsert dd ("date".data) now := by
      injection h with h2
      exact h2.symm
    refine ⟨dd, rfl, hr, ?_, ?_⟩
    · rw [hr, dictLookup_dictInsert, if_pos rfl]
    · intro k hkd
      rw [hr, dictLookup_dictInsert, if_neg hkd]

/-- Witness for claim C6 at the payload `date=old&a=b` with timestamp
`TS`: the persisted record carries `date = TS`, not `date = old`, and the
key `a` keeps its decoded value. -/
theorem save_data_record_shape_witness :
    save_data .ok ("TS".data) ("date=old&a=b".data) =
        .saved [("date".data, "TS".data), ("a".data, "b".data)] ∧
      ∃ data_dict, decode ("date=old&a=b".data) = some data_dict ∧
        [("date".data, "TS".data), ("a".data, "b".data)] =
          dictInsert data_dict ("date".data) ("TS".data) ∧
        dictLookup [("date".data, "TS".data), ("a".data, "b".data)]
            ("date".data) = some ("TS".data) ∧
        ∀ k, k ≠ "date".data →
          dictLookup [("date".data, "TS".data), ("a".data, "b".data)] k =
            dictLookup data_dict k :=
  ⟨by decide,
    save_data_record_shape ("TS".data) ("date=old&a=b".data)
      [("date".data, "TS".data), ("a".data, "b".data)] (by decide)⟩

/-- Looking up a key after folding a pair list into a dict yields the
value of the key's last occurrence, falling back to the initial dict. -/
lemma dictLookup_foldl (ps : List (List Char × List Char)) :
    ∀ (m : List (List Char × List Char)) (k : List Char),
      dictLookup (List.foldl (fun acc kv => dictInsert acc kv.1 kv.2) m ps) k =
        (lastLookup k ps).or (dictLookup m k) := by
  induction ps with
  | nil => intro m k; rfl
  | cons p ps ih =>
    intro m k
    rw [List.foldl_cons, ih]
    rcases hl : lastLookup k ps with _ | v
    · rw [Option.none_or, dictLookup_dictInsert]
      have h2 : lastLookup k (p :: ps) =
          if p.1 = k then some p.2 else none := by
        simp [lastLookup, hl]
      rw [h2]
      by_cases hpk : p.1 = k
      · rw [if_pos hpk, if_pos hpk.symm]
        rfl
      · rw [if_neg hpk, if_neg (fun h => hpk h.symm), Option.none_or]
    · have h2 : lastLookup k (p :: ps) = some v := by
        simp [lastLookup, hl]
      rw [h2]
      rfl

/-- Unfolding equation of the escape decoder: empty input. -/
lemma unquote_plus_nil : unquote_plus [] = [] := rfl

/-- Unfolding equation of the escape decoder: a leading plus sign. -/
lemma unquote_plus_plus (rest : List Char) :
    unquote_plus ('+' :: rest) = ' ' :: unquote_plus rest := rfl

/-- Unfolding equation of the escape decoder: a percent sign with at least
two following characters. -/
lemma unquote_plus_pct3 (a b : Char) (rest : List Char) :
    unquote_plus ('%' :: a :: b :: rest) =
      match hexVal a, hexVal b with
      | some x, some y => Char.ofNat (16 * x + y) :: unquote_plus rest
      | _, _ => '%' :: unquote_plus (a :: b :: rest) := rfl

/-- Unfolding equation of the escape decoder: a percent sign with exactly
one following character (an incomplete escape, left untouched). -/
lemma unquote_plus_pct2 (a : Char) :
    unquote_plus ['%', a] = '%' :: unquote_plus [a] := rfl

/-- Unfolding equation of the escape decoder: a trailing percent sign. -/
lemma unquote_plus_pct1 : unquote_plus ['%'] = ['%'] := rfl

/-- Unfolding equation of the escape decoder: any character other than
`+` and `%` passes through. -/
lemma unquote_plus_cons_ne (c : Char) (rest : List Char) (h1 : c ≠ '+')
    (h2 : c ≠ '%') :
    unquote_plus (c :: rest) = c :: unquote_plus rest := by
  rw [unquote_plus.eq_def]
  split
  · rename_i heq
    cases heq
  · rename_i heq
    injection heq with hc
    exact absurd hc h1
  · rename_i heq
    injection heq with hc
    exact absurd hc h2
  · rename_i c2 rest2 heq
    injection heq with hc hr
    rw [hc, hr]

/-- Percent-decoding distributes across any occurrence of a separator
character that can be neither escaped-into nor consumed by an escape:
not `+`, not `%`, and not a hex digit. This is what makes the `&` and `=`
structure of a payload invariant under `unquote_plus`. -/
lemma unquote_plus_append_sep (c : Char) (h1 : c ≠ '+') (h2 : c ≠ '%')
    (h3 : hexVal c = none) :
    ∀ (n : Nat) (xs ys : List Char), xs.length ≤ n →
      unquote_plus (xs ++ c :: ys) = unquote_plus xs ++ c :: unquote_plus ys := by
  intro n
  induction n with
  | zero =>
    intro xs ys hlen
    have hxs : xs = [] := List.length_eq_zero.mp (Nat.le_zero.mp hlen)
    subst hxs
    rw [List.nil_append, unquote_plus_nil, List.nil_append,
      unquote_plus_cons_ne c ys h1 h2]
  | succ n ih =>
    intro xs ys hlen
    rcases xs with _ | ⟨d, xs1⟩
    · rw [List.nil_append, unquote_plus_nil, List.nil_append,
        unquote_plus_cons_ne c ys h1 h2]
    · by_cases hd1 : d = '+'
      · subst hd1
        rw [List.cons_append, unquote_plus_plus, unquote_plus_plus,
          ih xs1 ys (Nat.le_of_succ_le_succ hlen), List.cons_append]
      · by_cases hd2 : d = '%'
        · subst hd2
          rcases xs1 with _ | ⟨a, xs2⟩
          · rcases ys with _ | ⟨y, ys1⟩
            · show unquote_plus ['%', c] =
                unquote_plus ['%'] ++ c :: unquote_plus []
              rw [unquote_plus_pct2 c, unquote_plus_cons_ne c [] h1 h2,
                unquote_plus_pct1]
              rfl
            · show unquote_plus ('%' :: c :: y :: ys1) =
                unquote_plus ['%'] ++ c :: unquote_plus (y :: ys1)
              rw [unquote_plus_pct3 c y ys1, h3, unquote_plus_pct1]
              rw [unquote_plus_cons_ne c (y :: ys1) h1 h2]
              rfl
          · rcases xs2 with _ | ⟨b, xs3⟩
            · show unquote_plus ('%' :: a :: c :: ys) =
                unquote_plus ['%', a] ++ c :: unquote_plus ys
              have hrec : unquote_plus (a :: c :: ys) =
                  unquote_plus [a] ++ c :: unquote_plus ys := by
                have h4 : [a].length ≤ n := by
                  simp only [List.length_cons, List.length_nil] at hlen ⊢
                  omega
                have h5 := ih [a] ys h4
                rwa [show ([a] ++ c :: ys) = a :: c :: ys from rfl] at h5
              rw [unquote_plus_pct3 a c ys, h3, unquote_plus_pct2 a]
              rcases ha : hexVal a with _ | x
              · show '%' :: unquote_plus (a :: c :: ys) =
                  ('%' :: unquote_plus [a]) ++ c :: unquote_plus ys
                rw [hrec]
                rfl
              · show '%' :: unquote_plus (a :: c :: ys) =
                  ('%' :: unquote_plus [a]) ++ c :: unquote_plus ys
                rw [hrec]
                rfl
            · have hlen3 : xs3.length ≤ n := by
                simp only [List.length_cons] at hlen
                omega
              have hlen2 : (a :: b :: xs3).length ≤ n := by
                simp only [List.length_cons] at hlen ⊢
                omega
              have hrec2 : unquote_plus (a :: b :: (xs3 ++ c :: ys)) =
                  unquote_plus (a :: b :: xs3) ++ c :: unquote_plus ys := by
                have h5 := ih (a :: b :: xs3) ys hlen2
                rwa [show ((a :: b :: xs3) ++ c :: ys) =
                  a :: b :: (xs3 ++ c :: ys) from rfl] at h5
              show unquote_plus ('%' :: a :: b :: (xs3 ++ c :: ys)) =
                unquote_plus ('%' :: a :: b :: xs3) ++ c :: unquote_plus ys
              rw [unquote_plus_pct3 a b (xs3 ++ c :: ys),
                unquote_plus_pct3 a b xs3]
              rcases ha : hexVal a with _ | x
              · rcases hb : hexVal b with _ | y
                · show '%' :: unquote_plus (a :: b :: (xs3 ++ c :: ys)) =
                    ('%' :: unquote_plus (a :: b :: xs3)) ++ c :: unquote_plus ys
                  rw [hrec2]
                  rfl
                · show '%' :: unquote_plus (a :: b :: (xs3 ++ c :: ys)) =
                    ('%' :: unquote_plus (a :: b :: xs3)) ++ c :: unquote_plus ys
                  rw [hrec2]
                  rfl
              · rcases hb : hexVal b with _ | y
                · show '%' :: unquote_plus (a :: b :: (xs3 ++ c :: ys)) =
                    ('%' :: unquote_plus (a :: b :: xs3)) ++ c :: unquote_plus ys
                  rw [hrec2]
                  rfl
                · show Char.ofNat (16 * x + y) :: unquote_plus (xs3 ++ c :: ys) =
                    (Char.ofNat (16 * x + y) :: unquote_plus xs3) ++
                      c :: unquote_plus ys
                  rw [ih xs3 ys hlen3]
                  rfl
        · rw [List.cons_append, unquote_plus_cons_ne d (xs1 ++ c :: ys) hd1 hd2,
            unquote_plus_cons_ne d xs1 hd1 hd2,
            ih xs1 ys (Nat.le_of_succ_le_succ hlen), List.cons_append]

/-- Percent-decoding a joined payload decodes each part separately when
the separator is `&`-like (not `+`, not `%`, not a hex digit). -/
lemma unquote_plus_joinSep (sep : Char) (hs1 : sep ≠ '+') (hs2 : sep ≠ '%')
    (hs3 : hexVal sep = none) (parts : List (List Char)) :
    unquote_plus (joinSep sep parts) = joinSep sep (parts.map unquote_plus) := by
  induction parts with
  | nil => rfl
  | cons p ps ih =>
    rcases ps with _ | ⟨q, ps1⟩
    · rfl
    · show unquote_plus (p ++ sep :: joinSep sep (q :: ps1)) =
        joinSep sep ((p :: q :: ps1).map unquote_plus)
      rw [unquote_plus_append_sep sep hs1 hs2 hs3 p.length p
        (joinSep sep (q :: ps1)) le_rfl, ih]
      rfl

/-- Splitting a string that avoids the separator yields one part. -/
lemma pySplit_no_sep (sep : Char) (xs : List Char) (h : sep ∉ xs) :
    pySplit sep xs = [xs] := by
  induction xs with
  | nil => rfl
  | cons c rest ih =>
    have hc : ¬ c = sep := fun he => h (he ▸ List.mem_cons_self c rest)
    have hr : sep ∉ rest := fun hm => h (List.mem_cons_of_mem c hm)
    simp only [pySplit, if_neg hc]
    rw [ih hr]

/-- Splitting peels off a separator-free prefix. -/
lemma pySplit_append_sep (sep : Char) (xs ys : List Char) (h : sep ∉ xs) :
    pySplit sep (xs ++ sep :: ys) = xs :: pySplit sep ys := by
  induction xs with
  | nil => simp [pySplit]
  | cons c rest ih =>
    have hc : ¬ c = sep := fun he => h (he ▸ List.mem_cons_self c rest)
    have hr : sep ∉ rest := fun hm => h (List.mem_cons_of_mem c hm)
    simp only [List.cons_append, pySplit, if_neg hc, List.append_eq]
    rw [ih hr]

/-- Split is a left inverse of join when no part contains the
separator. -/
lemma pySplit_joinSep (sep : Char) (parts : List (List Char))
    (h : ∀ p ∈ parts, sep ∉ p) (hne : parts ≠ []) :
    pySplit sep (joinSep sep parts) = parts := by
  induction parts with
  | nil => exact absurd rfl hne
  | cons p ps ih =>
    rcases ps with _ | ⟨q, ps1⟩
    · exact pySplit_no_sep sep p (h p (List.mem_cons_self p []))
    · show pySplit sep (p ++ sep :: joinSep sep (q :: ps1)) = p :: q :: ps1
      rw [pySplit_append_sep sep p _ (h p (List.mem_cons_self p _)),
        ih (fun r hr => h r (List.mem_cons_of_mem p hr)) (by simp)]

/-- A `key=value` segment whose sides avoid `=` unpacks to its pair. -/
lemma parseSegment_pair (k v : List Char) (hk : '=' ∉ k) (hv : '=' ∉ v) :
    parseSegment (k ++ '=' :: v) = some (k, v) := by
  unfold parseSegment
  rw [pySplit_append_sep '=' k v hk, pySplit_no_sep '=' v hv]

/-- A list of well-formed segments parses back to its pairs. -/
lemma parseAll_pairs (ps : List (List Char × List Char))
    (h : ∀ p ∈ ps, '=' ∉ p.1 ∧ '=' ∉ p.2) :
    parseAll (ps.map (fun p => p.1 ++ '=' :: p.2)) = some ps := by
  induction ps with
  | nil => rfl
  | cons p ps ih =>
    simp only [List.map_cons, parseAll]
    rw [parseSegment_pair p.1 p.2 (h p (List.mem_cons_self p ps)).1
      (h p (List.mem_cons_self p ps)).2,
      ih (fun q hq => h q (List.mem_cons_of_mem p hq))]

/-- Folding pairs whose keys are fresh (absent from the dict and mutually
distinct) into a dict appends them in order. -/
lemma foldl_dictInsert_fresh :
    ∀ (ps : List (List Char × List Char)) (m : List (List Char × List Char)),
      (∀ p ∈ ps, ∀ q ∈ m, q.1 ≠ p.1) → (ps.map Prod.fst).Nodup →
      List.foldl (fun acc kv => dictInsert acc kv.1 kv.2) m ps = m ++ ps := by
  intro ps
  induction ps with
  | nil =>
    intro m h hn
    simp
  | cons p ps ih =>
    intro m h hn
    rw [List.foldl_cons]
    have hfresh : ¬ (m.any (fun q => q.1 = p.1) = true) := by
      rw [List.any_eq_true]
      rintro ⟨q, hq, hq2⟩
      exact h p (List.mem_cons_self p ps) q hq (by simpa using hq2)
    have hins : dictInsert m p.1 p.2 = m ++ [p] := by
      unfold dictInsert
      rw [if_neg hfresh]
    rw [hins]
    have hn2 : (ps.map Prod.fst).Nodup := by
      simp only [List.map_cons, List.nodup_cons] at hn
      exact hn.2
    have hhead : p.1 ∉ ps.map Prod.fst := by
      simp only [List.map_cons, List.nodup_cons] at hn
      exact hn.1
    have h2 : ∀ r ∈ ps, ∀ q ∈ m ++ [p], q.1 ≠ r.1 := by
      intro r hr q hq
      rcases List.mem_append.mp hq with hqm | hqp
      · exact h r (List.mem_cons_of_mem p hr) q hqm
      · have hqe : q = p := by simpa using hqp
        subst hqe
        intro he
        exact hhead (he ▸ List.mem_map_of_mem Prod.fst hr)
    rw [ih (m ++ [p]) h2 hn2, List.append_assoc]
    rfl

/-- Common front end for the well-formedness claims: a `formPayload` whose
decoded parts avoid `&` and `=` decodes to the dict built from its decoded
pairs by repeated insertion. -/
lemma decode_formPayload (pairs : List (List Char × List Char))
    (hne : pairs ≠ [])
    (hfree : ∀ p ∈ pairs, ('&' ∉ unquote_plus p.1) ∧ ('=' ∉ unquote_plus p.1) ∧
      ('&' ∉ unquote_plus p.2) ∧ ('=' ∉ unquote_plus p.2)) :
    decode (formPayload pairs) =
      some (List.foldl (fun acc kv => dictInsert acc kv.1 kv.2) []
        (decodedPairs pairs)) := by
  have h1 : unquote_plus (joinSep '&' (pairs.map (fun p => p.1 ++ '=' :: p.2))) =
      joinSep '&' ((pairs.map (fun p => p.1 ++ '=' :: p.2)).map unquote_plus) :=
    unquote_plus_joinSep '&' (by decide) (by decide) (by decide) _
  have h2 : (pairs.map (fun p => p.1 ++ '=' :: p.2)).map unquote_plus =
      (decodedPairs pairs).map (fun p => p.1 ++ '=' :: p.2) := by
    unfold decodedPairs
    rw [List.map_map, List.map_map]
    apply List.map_congr_left
    intro p hp
    show unquote_plus (p.1 ++ '=' :: p.2) =
      unquote_plus p.1 ++ '=' :: unquote_plus p.2
    exact unquote_plus_append_sep '=' (by decide) (by decide) (by decide)
      p.1.length p.1 p.2 le_rfl
  have h3 : ∀ s ∈ (decodedPairs pairs).map (fun p => p.1 ++ '=' :: p.2),
      '&' ∉ s := by
    intro s hs
    obtain ⟨q, hq, rfl⟩ := List.mem_map.mp hs
    obtain ⟨r, hr, rfl⟩ := List.mem_map.mp hq
    intro hmem
    rcases List.mem_append.mp hmem with hk | hv
    · exact (hfree r hr).1 hk
    · rcases List.mem_cons.mp hv with he | hv2
      · cases he
      · exact (hfree r hr).2.2.1 hv2
  have h4 : (decodedPairs pairs).map (fun p => p.1 ++ '=' :: p.2) ≠ [] := by
    intro he
    apply hne
    unfold decodedPairs at he
    simpa using he
  have h5 : ∀ p ∈ decodedPairs pairs, ('=' ∉ p.1) ∧ ('=' ∉ p.2) := by
    intro p hp
    obtain ⟨r, hr, rfl⟩ := List.mem_map.mp hp
    exact ⟨(hfree r hr).2.1, (hfree r hr).2.2.2⟩
  unfold decode formPayload
  rw [h1, h2, pySplit_joinSep '&' _ h3 h4, parseAll_pairs _ h5]

/-- Claim C4: a well-formed payload `key=value&key=value...` with distinct
keys decodes to the map holding exactly the given keys and values,
percent-decoded, in order.  Well-formedness means the decoded keys and
values contain no `&` and no `=` (otherwise the shape is not
`key=value&...`), and there is at least one pair. -/
theorem decode_wellformed (pairs : List (List Char × List Char))
    (hne : pairs ≠ [])
    (hfree : ∀ p ∈ pairs, ('&' ∉ unquote_plus p.1) ∧ ('=' ∉ unquote_plus p.1) ∧
      ('&' ∉ unquote_plus p.2) ∧ ('=' ∉ unquote_plus p.2))
    (hkeys : (pairs.map (fun p => unquote_plus p.1)).Nodup) :
    decode (formPayload pairs) = some (decodedPairs pairs) := by
  rw [decode_formPayload pairs hne hfree]
  have hkeys2 : ((decodedPairs pairs).map Prod.fst).Nodup := by
    unfold decodedPairs
    rw [List.map_map]
    exact hkeys
  rw [foldl_dictInsert_fresh (decodedPairs pairs) []
    (fun p _ q hq => absurd hq (List.not_mem_nil q)) hkeys2]
  rw [List.nil_append]

/-- Witness for claim C4 at the spec's scenario payload
`name=Alice&msg=Hi%20there`. -/
theorem decode_wellformed_witness :
    ([("name".data, "Alice".data), ("msg".data, "Hi%20there".data)] ≠
      ([] : List (List Char × List Char))) ∧
    decode ("name=Alice&msg=Hi%20there".data) =
      some [("name".data, "Alice".data), ("msg".data, "Hi there".data)] := by
  constructor
  · decide
  · have h := decode_wellformed
      [("name".data, "Alice".data), ("msg".data, "Hi%20there".data)]
      (by decide) (by decide) (by decide)
    have e1 : formPayload
        [("name".data, "Alice".data), ("msg".data, "Hi%20there".data)] =
        "name=Alice&msg=Hi%20there".data := by decide
    have e2 : decodedPairs
        [("name".data, "Alice".data), ("msg".data, "Hi%20there".data)] =
        [("name".data, "Alice".data), ("msg".data, "Hi there".data)] := by
      decide
    rw [e1, e2] at h
    exact h

/-- Claim C10: a well-formed payload in which some key occurs in more than
one segment still decodes successfully, and the resulting map binds every
key to the value of its LAST occurrence among the decoded pairs — earlier
values are discarded, exactly as a Python dict comprehension keeps the
last binding. -/
theorem decode_duplicate_keys (pairs : List (List Char × List Char))
    (hne : pairs ≠ [])
    (hfree : ∀ p ∈ pairs, ('&' ∉ unquote_plus p.1) ∧ ('=' ∉ unquote_plus p.1) ∧
      ('&' ∉ unquote_plus p.2) ∧ ('=' ∉ unquote_plus p.2))
    (hdup : ∃ k, 2 ≤ (pairs.map (fun p => unquote_plus p.1)).count k) :
    ∃ m, decode (formPayload pairs) = some m ∧
      ∀ k, dictLookup m k = lastLookup k (decodedPairs pairs) := by
  refine ⟨List.foldl (fun acc kv => dictInsert acc kv.1 kv.2) []
    (decodedPairs pairs), decode_formPayload pairs hne hfree, ?_⟩
  intro k
  rw [dictLookup_foldl]
  show (lastLookup k (decodedPairs pairs)).or none =
    lastLookup k (decodedPairs pairs)
  rcases lastLookup k (decodedPairs pairs) with _ | v <;> rfl

/-- Witness for claim C10 at the payload `a=1&a=2`: the key `a` occurs
twice and the decoded map binds it to `2`, the last value. -/
theorem decode_duplicate_keys_witness :
    (∃ k, 2 ≤ (([("a".data, "1".data), ("a".data, "2".data)]).map
      (fun p => unquote_plus p.1)).count k) ∧
    ∃ m, decode ("a=1&a=2".data) = some m ∧
      dictLookup m ("a".data) = some ("2".data) := by
  constructor
  · exact ⟨"a".data, by decide⟩
  · obtain ⟨m, hm, hlast⟩ := decode_duplicate_keys
      [("a".data, "1".data), ("a".data, "2".data)]
      (by decide) (by decide) ⟨"a".data, by decide⟩
    have e1 : formPayload [("a".data, "1".data), ("a".data, "2".data)] =
        "a=1&a=2".data := by decide
    rw [e1] at hm
    refine ⟨m, hm, ?_⟩
    rw [hlast ("a".data)]
    decide

end Main
